import Mathlib

/-!
Shallow embedding of the MicroStorm BLE indoor-positioning firmware
(src/particle.c, src/rssi.c, src/util.c, src/mqtt.c) over exact rationals.

Modelling conventions:
- C `float` arithmetic is modelled as exact arithmetic on `ℚ`.
- Calls into the float math library (`sqrtf`, `expf`, `cosf`, `sinf`) are
  modelled as function parameters of type `ℚ → ℚ`.
- Random sources (`rand()`, the Box-Muller Gaussian sampler) are modelled
  as oracle parameters; `ble_util_rand_float lo hi u` takes
  `u = rand() / RAND_MAX ∈ [0, 1]`.
- A C float division whose denominator is zero produces a non-real value
  (±inf or NaN).  Where such a division is reachable and relevant to a
  property, the embedding returns `Option.none` for that computation;
  where only the identity of the written fields matters the total `ℚ`
  division convention (`x / 0 = 0`) is used and noted.
- An out-of-bounds array access (undefined behaviour in C) is modelled as
  `Option.none`.
-/

/-! ## Constants (include/config.h, include/particle.h) -/

def AREA_X : ℚ := 3

def AREA_Y : ℚ := 2

def PARTICLE_SET : ℕ := 400

def NO_OF_APS : ℕ := 4

/-- Float literal 0.8F from particle.h, modelled exactly. -/
def AP_MEASUREMENT_VAR : ℚ := 4 / 5

/-- Float literal 0.95F from particle.h, modelled exactly. -/
def RATIO_COEFFICIENT : ℚ := 19 / 20

/-- The single-precision value of `M_PI` (only its positivity matters to
any claim below). -/
def mpi : ℚ := 13176795 / 4194304

/-! ## Utility functions (include/util.h, src/util.c) -/

/-- util.h line 32: `clampf(v, minv, maxv) = fmaxf(fminf(maxv, v), minv)`. -/
def clampf (v minv maxv : ℚ) : ℚ := max (min maxv v) minv

/-- Truncation toward zero, as used by C `fmodf`. -/
def ctrunc (q : ℚ) : ℤ := if 0 ≤ q then ⌊q⌋ else ⌈q⌉

/-- C `fmodf x y = x - y * trunc (x / y)` (for `y ≠ 0`). -/
def cfmod (x y : ℚ) : ℚ := x - y * ctrunc (x / y)

/-- util.h line 33:
`clampaf(a) = fmodf(a, 2*M_PI) + (a < 0 ? 2*M_PI : 0)`. -/
def clampaf (a : ℚ) : ℚ := cfmod a (2 * mpi) + (if a < 0 then 2 * mpi else 0)

/-- src/util.c `ble_util_rand_float(min, max)`; the declared
`ble_util_sample_range` of util.h is this function (same signature and
doc) under its earlier name.  `u` stands for `rand() / RAND_MAX`, which
ranges over `[0, 1]` inclusively. -/
def ble_util_rand_float (minv maxv u : ℚ) : ℚ := minv + u * (maxv - minv)

/-- src/util.c `ble_util_scale`. -/
def ble_util_scale (x a b c d : ℚ) : ℚ := c + (x - a) * (d - c) / (b - a)

/-- One iteration count of the van der Corput digit loop of
`ble_util_corput`; `fuel ≥ n` suffices for bases ≥ 2 (the C loop runs
`while (n > 0)`). -/
def corputAux (base : ℕ) : ℕ → ℕ → ℚ
  | _, 0 => 0
  | 0, _ + 1 => 0
  | fuel + 1, n + 1 =>
      (((n + 1) % base : ℕ) + corputAux base fuel ((n + 1) / base)) / (base : ℚ)

/-- src/util.c `ble_util_corput`, value at index `n` of the sequence for
`base` (the C function tabulates these values for `0 ≤ n < set_size`). -/
def ble_util_corput (n base : ℕ) : ℚ := corputAux base n n

/-- src/util.c `ble_util_prime_sieve`: the first `k` primes in ascending
order.  The C sieve starts with bound `n = 10`, which already contains
the `k = 2` primes requested by `ble_particle_generate`, so the
regrowth branch is not exercised. -/
def ble_util_prime_sieve (k : ℕ) : List ℕ :=
  ((List.range 11).filter (fun i => decide (Nat.Prime i))).take k

/-! ## Particle data model (include/particle.h) -/

structure Vec2 where
  x : ℚ
  y : ℚ
deriving DecidableEq

inductive BleParticleMotion where
  | stop
  | moving
deriving DecidableEq

structure BleParticleState where
  pos : Vec2
  theta : ℚ
  motion : BleParticleMotion
deriving DecidableEq

structure BleParticle where
  state : BleParticleState
  weight : ℚ
deriving DecidableEq

structure BleParticleNode where
  pos : Vec2
  acceleration : ℚ
deriving DecidableEq

structure BleParticleAp where
  pos : Vec2
  id : ℤ
  node_distance : ℚ
deriving DecidableEq

structure BleParticleApDist where
  d_node : ℚ
  d_particle : ℚ
deriving DecidableEq

structure BleParticleData where
  aps : List BleParticleAp
  node : BleParticleNode
deriving DecidableEq

/-! ## particle.c -/

/-- src/particle.c `ble_particle_normalize` (lines 41-54): divide every
weight by the sum of all weights.  There is no guard for a zero sum: in
C this divides `0 / 0`, producing NaN weights; under the exact `ℚ`
convention `w / 0 = 0`.  Under either semantics no weight is reset to
`1/N`. -/
def ble_particle_normalize (arr : List BleParticle) : List BleParticle :=
  let s := (arr.map BleParticle.weight).sum
  arr.map (fun p => { p with weight := p.weight / s })

/-- src/particle.c `ble_particle_generate` (lines 65-113).  Particle
`p` (0-based) receives van der Corput values at index `p + 1` (the C
loop skips sample index 0) for the two prime bases from the sieve,
scaled from `(0,1)` into the area.  `u p` models the `rand()/RAND_MAX`
draw behind the orientation sample retained by the final (y-dimension)
pass; the motion state is `MOTION_STATE_STOP` and the weight is the
constant `1.0F / PARTICLE_SET` regardless of `size`. -/
def ble_particle_generate (u : ℕ → ℚ) (size : ℕ) : List BleParticle :=
  (List.range size).map (fun p =>
    { state :=
        { pos :=
            { x := ble_util_scale
                (ble_util_corput (p + 1) ((ble_util_prime_sieve 2).getD 0 0)) 0 1 0 AREA_X
            , y := ble_util_scale
                (ble_util_corput (p + 1) ((ble_util_prime_sieve 2).getD 1 0)) 0 1 0 AREA_Y }
        , theta := ble_util_rand_float 0 (2 * mpi) (u p)
        , motion := BleParticleMotion.stop }
    , weight := 1 / (PARTICLE_SET : ℚ) })

/-- src/particle.c `ble_particle_state_predict` (lines 151-182).
`sm i` models `ble_util_sample(MOTION_STATE_COUNT)` (a value in
`{STOP, MOVING}`); `ut i` models the `rand()/RAND_MAX` draw of the
stopped-orientation sample; `gt i` and `gp i` model the Box-Muller
Gaussian samples `ble_particle_gaussian_sample` for orientation delta
and position delta (the code applies `fabsf` to the position sample);
`fcos`/`fsin` model `cosf`/`sinf`. -/
def ble_particle_state_predict (fcos fsin : ℚ → ℚ) (sm : ℕ → BleParticleMotion)
    (ut gt gp : ℕ → ℚ) (particles : List BleParticle) : List BleParticle :=
  particles.enum.map (fun pr =>
    let i := pr.1
    let p := pr.2
    let m := sm i
    let dTheta : ℚ :=
      match m with
      | BleParticleMotion.stop => ble_util_rand_float 0 (2 * mpi) (ut i)
      | BleParticleMotion.moving => gt i
    let dPos : ℚ :=
      match m with
      | BleParticleMotion.stop => 0
      | BleParticleMotion.moving => |gp i|
    { state :=
        { pos :=
            { x := clampf (p.state.pos.x + dPos * fcos p.state.theta) 0 AREA_X
            , y := clampf (p.state.pos.y + dPos * fsin p.state.theta) 0 AREA_Y }
        , theta := clampaf (p.state.theta + dTheta)
        , motion := m }
    , weight := p.weight })

/-- The `max_dist` scan of `ble_particle_weight_gain` (src/particle.c
lines 197-201): strictly-greater replaces, ties keep the earlier
entry. -/
def maxNodeDist (d0 : BleParticleApDist) (rest : List BleParticleApDist) :
    BleParticleApDist :=
  rest.foldl (fun m d => if d.d_node > m.d_node then d else m) d0

/-- src/particle.c `ble_particle_weight_gain` (lines 193-216).
`fsqrt`/`fexp` model `sqrtf`/`expf`.  When `max_node_distance = 0` the
C code divides `d_node / 0` producing NaN; that (and an empty input,
which would read `dist[0]` out of bounds) is modelled as `none`.  The
dead branch `fsqrt (13) = 0` is likewise mapped to `none` (C `sqrtf 13
> 0`, so it never fires). -/
def ble_particle_weight_gain (fsqrt fexp : ℚ → ℚ) (dist : List BleParticleApDist) :
    Option ℚ :=
  match dist with
  | [] => none
  | d0 :: rest =>
    let maxd := maxNodeDist d0 rest
    if maxd.d_node = 0 then none
    else
      let diag := fsqrt (AREA_X ^ 2 + AREA_Y ^ 2)
      if diag = 0 then none
      else
        let dd := ((d0 :: rest).map
          (fun d => |d.d_particle / diag - d.d_node / maxd.d_node|)).sum /
            ((d0 :: rest).length : ℚ)
        some (fexp (-(1 / 2) * (dd / AP_MEASUREMENT_VAR) ^ 2))

/-- The inner `while (sum < pointer)` advance of
`ble_particle_resample` (src/particle.c lines 245-248).  The state is
the running cumulative `sum`, the current `index`, and the list of
weights after `index`; stepping past the last element (an out-of-bounds
read of `particles[index]` in C) is `none`. -/
def susAdvance (pointer : ℚ) : List ℚ → ℚ → ℕ → Option (ℚ × ℕ × List ℚ)
  | [], s, index => if s < pointer then none else some (s, index, [])
  | w :: rest, s, index =>
    if s < pointer then susAdvance pointer rest (s + w) (index + 1)
    else some (s, index, w :: rest)

/-- The outer `for (k = 0; k < size; k++)` loop of
`ble_particle_resample`: one `susAdvance` per pointer, threading
`(sum, index)`; returns the list of selected indices. -/
def susLoop : List ℚ → List ℚ → ℚ → ℕ → Option (List ℕ)
  | [], _, _, _ => some []
  | pointer :: ptrs, rest, s, index =>
    match susAdvance pointer rest s index with
    | none => none
    | some (s2, index2, rest2) =>
      (susLoop ptrs rest2 s2 index2).map (fun l => index2 :: l)

/-- src/particle.c `ble_particle_resample` (lines 227-256).  `start`
models the draw `ble_util_sample_range(0, 1/size)`; pointer `k` is
`start + k * (1/size)`; the selected particles are copied into the new
array, which is then normalized and copied back.  An empty input would
read `particles[0]` out of bounds (`none`). -/
def ble_particle_resample (particles : List BleParticle) (start : ℚ) :
    Option (List BleParticle) :=
  match particles with
  | [] => none
  | p0 :: rest =>
    let n : ℕ := rest.length + 1
    let ptrs := (List.range n).map (fun k : ℕ => start + (k : ℚ) * (1 / (n : ℚ)))
    match susLoop ptrs (rest.map BleParticle.weight) p0.weight 0 with
    | none => none
    | some idxs =>
      some (ble_particle_normalize (idxs.map (fun i => (p0 :: rest).getD i p0)))

/-- The distance-matrix and weight-update loops of
`ble_particle_update` (src/particle.c lines 298-313): row `i` of the
`dist` matrix holds, for each AP, the exact Euclidean distance from
(predicted) particle `i` to the AP position and the AP's reported node
distance; the row feeds `ble_particle_weight_gain` and the particle's
weight is multiplied by the gain.  Row `i` is consumed only by particle
`i`, so the two C loops fuse into one pass.  A NaN gain
(`ble_particle_weight_gain = none`) poisons the call: `none`. -/
def weighAll (fsqrt fexp : ℚ → ℚ) (aps : List BleParticleAp) :
    List BleParticle → Option (List BleParticle)
  | [] => some []
  | p :: ps =>
    let dist := aps.map (fun ap =>
      let dx := |ap.pos.x - p.state.pos.x|
      let dy := |ap.pos.y - p.state.pos.y|
      { d_node := ap.node_distance, d_particle := fsqrt (dx ^ 2 + dy ^ 2) })
    match ble_particle_weight_gain fsqrt fexp dist with
    | none => none
    | some g =>
      (weighAll fsqrt fexp aps ps).map
        (fun l => { p with weight := p.weight * g } :: l)

/-- src/particle.c `ble_particle_update` (lines 268-349), one call.
`particles?` models the function-local static particle array (`none`
before the first call, in which case `ble_particle_generate` runs with
`PARTICLE_SET`); `ustart` models the SUS offset draw inside
`ble_particle_resample`.  The per-particle/per-AP distance matrix, the
weight update, normalization, the effective-sample-size test, the
optional resampling, and the weighted-mean node-position estimate
follow the C statement order.  The final `memcpy` into the static
`prev_ap` buffer copies FROM `data->aps` and is dead state (never read
back), so it is not part of the model.  A NaN-producing weight gain or
an out-of-bounds resampling scan yields `none`. -/
def ble_particle_update (fsqrt fexp fcos fsin : ℚ → ℚ)
    (sm : ℕ → BleParticleMotion) (ut gt gp : ℕ → ℚ) (ugen : ℕ → ℚ) (ustart : ℚ)
    (particles? : Option (List BleParticle)) (data : BleParticleData) :
    Option (List BleParticle × BleParticleData) :=
  let particles :=
    match particles? with
    | none => ble_particle_generate ugen PARTICLE_SET
    | some ps => ps
  let pred := ble_particle_state_predict fcos fsin sm ut gt gp particles
  match weighAll fsqrt fexp data.aps pred with
  | none => none
  | some weighted =>
    let normed := ble_particle_normalize weighted
    let sumSq := (normed.map (fun p => p.weight ^ 2)).sum
    let nEff := 1 / sumSq
    let resampled? :=
      if nEff < (normed.length : ℚ) * RATIO_COEFFICIENT then
        ble_particle_resample normed ustart
      else some normed
    match resampled? with
    | none => none
    | some finalPs =>
      let sumW := (finalPs.map BleParticle.weight).sum
      let sx := (finalPs.map (fun p => p.weight * p.state.pos.x)).sum
      let sy := (finalPs.map (fun p => p.weight * p.state.pos.y)).sum
      some (finalPs,
        { data with node :=
            { data.node with pos :=
                { x := clampf (sx / sumW) 0 AREA_X
                , y := clampf (sy / sumW) 0 AREA_Y } } })

/-! ## rssi.c -/

structure BleRssiState where
  state : ℚ
  err_v : ℚ
  p_noise : ℚ
  m_noise : ℚ
deriving DecidableEq

/-- src/rssi.c `ble_rssi_kf_estimate` (lines 40-61): scalar Kalman
step. -/
def ble_rssi_kf_estimate (s : BleRssiState) (m : ℚ) : BleRssiState :=
  let errVP := s.err_v + s.p_noise
  let k := errVP / (errVP + s.m_noise)
  { s with
    state := s.state + k * (m - s.state)
    err_v := (1 - k) * errVP }

/-- `n` Kalman steps fed with the constant measurement `v`. -/
def kfIterate (s : BleRssiState) (v : ℚ) : ℕ → BleRssiState
  | 0 => s
  | n + 1 => ble_rssi_kf_estimate (kfIterate s v n) v

/-- src/rssi.c `ble_rssi_low_pass_filter` (lines 86-100), one call after
the seed call, with the static `prev` and the computed `dt` made
explicit:  `new = prev + (dt / (kalman_rssi + dt)) * (kalman_rssi -
prev)`.  A zero denominator `kalman_rssi + dt` is an unguarded C float
division by zero (±inf/NaN), modelled as `none`. -/
def ble_rssi_low_pass_filter_step (prev kalman_rssi dt : ℚ) : Option ℚ :=
  if kalman_rssi + dt = 0 then none
  else some (prev + dt / (kalman_rssi + dt) * (kalman_rssi - prev))

/-! ## mqtt.c (HOST measurement aggregation) -/

/-- Digit test used by the C `strtol`/`strtof` models. -/
def cIsDigit (c : Char) : Bool := decide ('0' ≤ c) && decide (c ≤ '9')

/-- Leading decimal digits of a character list: their value and the
rest. -/
def parseNatDigits : List Char → ℕ → ℕ × List Char
  | [], acc => (acc, [])
  | c :: cs, acc =>
    if cIsDigit c then parseNatDigits cs (acc * 10 + (c.toNat - 48))
    else (acc, c :: cs)

/-- C `strtol(s, _, 10)`: optional sign then leading digits; no
conversion yields 0 (records carry no leading whitespace). -/
def cstrtol (s : List Char) : ℤ :=
  match s with
  | '-' :: cs => -((parseNatDigits cs 0).1 : ℤ)
  | '+' :: cs => ((parseNatDigits cs 0).1 : ℤ)
  | cs => ((parseNatDigits cs 0).1 : ℤ)

/-- Fractional digits after the decimal point, with decreasing place
value. -/
def parseFracDigits : List Char → ℚ → ℚ → ℚ
  | [], acc, _ => acc
  | c :: cs, acc, place =>
    if cIsDigit c then parseFracDigits cs (acc + place * ((c.toNat - 48 : ℕ) : ℚ)) (place / 10)
    else acc

/-- Unsigned part of the C `strtof` model. -/
def cstrtofUnsigned (cs : List Char) : ℚ :=
  let ip := parseNatDigits cs 0
  match ip.2 with
  | '.' :: cs2 => (ip.1 : ℚ) + parseFracDigits cs2 0 (1 / 10)
  | _ => (ip.1 : ℚ)

/-- C `strtof`: optional sign then decimal number; no conversion yields
0. -/
def cstrtof (s : List Char) : ℚ :=
  match s with
  | '-' :: cs => -cstrtofUnsigned cs
  | '+' :: cs => cstrtofUnsigned cs
  | cs => cstrtofUnsigned cs

/-- C `strtok(_, ",")` pass over a record: maximal runs of non-comma
characters (empty fields are skipped, as strtok does). -/
def ctokenAux : List Char → List Char → List (List Char)
  | [], tok => if tok = [] then [] else [tok.reverse]
  | c :: cs, tok =>
    if c = ',' then
      (if tok = [] then ctokenAux cs [] else tok.reverse :: ctokenAux cs [])
    else ctokenAux cs (c :: tok)

def ctokens (s : List Char) : List (List Char) := ctokenAux s []

/-- The `MQTT_EVENT_DATA` parsing block of `ble_mqtt_event_handler`
(src/mqtt.c lines 208-234): split the record on commas and convert the
four fields `[id, distance, posx, posy]`; a missing field leaves the
zero value of the `= {0}` initializer.  (The surrounding
`for (i < strlen(data_buf))` loop re-parses the first token into `id`
on later iterations with the same result, so a single pass gives the
final stored values.) -/
def ble_mqtt_parse_ap_record (s : List Char) : BleParticleAp :=
  let ts := ctokens s
  { id := match ts.get? 0 with | some t => cstrtol t | none => 0
  , node_distance := match ts.get? 1 with | some t => cstrtof t | none => 0
  , pos :=
      { x := match ts.get? 2 with | some t => cstrtof t | none => 0
      , y := match ts.get? 3 with | some t => cstrtof t | none => 0 } }

/-- The replace-by-id scan of `ble_mqtt_store_ap_data` (src/mqtt.c
lines 148-155): replace the first buffer entry whose `id` equals the
incoming one. -/
def storeScan : List BleParticleAp → BleParticleAp → Option (List BleParticleAp)
  | [], _ => none
  | a :: rest, d =>
    if a.id = d.id then some (d :: rest)
    else (storeScan rest d).map (fun l => a :: l)

/-- src/mqtt.c `ble_mqtt_store_ap_data` (lines 145-161) acting on the
static `ap_data[NO_OF_APS]` buffer and `event_idx` counter. -/
def ble_mqtt_store_ap_data (buf : List BleParticleAp) (eventIdx : ℕ)
    (d : BleParticleAp) : List BleParticleAp × ℕ :=
  match storeScan buf d with
  | some buf2 => (buf2, eventIdx)
  | none =>
    if eventIdx = NO_OF_APS then (buf, eventIdx)
    else (buf.set eventIdx d, eventIdx + 1)

/-- Processing of one received record by the `MQTT_EVENT_DATA` case:
parse, then store into the aggregation buffer. -/
def ble_mqtt_on_data_event (buf : List BleParticleAp) (eventIdx : ℕ)
    (record : List Char) : List BleParticleAp × ℕ :=
  ble_mqtt_store_ap_data buf eventIdx (ble_mqtt_parse_ap_record record)

/-- The zero value of the static `ap_data` entries. -/
def zeroAp : BleParticleAp := { pos := { x := 0, y := 0 }, id := 0, node_distance := 0 }

/-- The HOST-side shared state of src/mqtt.c: the aggregation buffer
`ap_data` with its counter `event_idx`, the particle-filter input
`pf_data`, the engine's static particle set, and whether the particle
set mutex is currently held by a previous cycle's update. -/
structure MqttHostState where
  apData : List BleParticleAp
  eventIdx : ℕ
  pfData : BleParticleData
  lockHeld : Bool
  particles : Option (List BleParticle)
deriving DecidableEq

/-- The cycle-completion block of `ble_mqtt_event_handler` (src/mqtt.c
lines 238-247): when `event_idx == NO_OF_APS`, copy the buffer into
`pf_data.aps`, spawn `ble_mqtt_update_pf_task`, reset the counter and
clear the buffer.  Copy, reset and clear happen on the ingestion path
itself, before and independently of the spawned task's lock attempt. -/
def ble_mqtt_cycle_complete_step (s : MqttHostState) : MqttHostState :=
  { s with
    pfData := { s.pfData with aps := s.apData }
    eventIdx := 0
    apData := List.replicate NO_OF_APS zeroAp }

/-- src/mqtt.c `ble_mqtt_update_pf_task` (lines 97-125): a non-blocking
`xSemaphoreTake(xSemaphore, 0)`; when the mutex is already held the
task does nothing and deletes itself; otherwise it runs
`ble_particle_update` and, on success, emits the node position (the
`extra_task` print/publish).  The emitted estimate is the second
component. -/
def ble_mqtt_update_pf_task (fsqrt fexp fcos fsin : ℚ → ℚ)
    (sm : ℕ → BleParticleMotion) (ut gt gp ugen : ℕ → ℚ) (ustart : ℚ)
    (s : MqttHostState) : MqttHostState × Option Vec2 :=
  if s.lockHeld then (s, none)
  else
    match ble_particle_update fsqrt fexp fcos fsin sm ut gt gp ugen ustart
        s.particles s.pfData with
    | none => (s, none)
    | some psd =>
      ({ s with particles := some psd.1, pfData := psd.2 }, some psd.2.node.pos)

/-! ## Claim theorems -/

/-- Default particle (the zero value of a `calloc`-ed `ble_particle_t`). -/
def pdefault : BleParticle := ⟨⟨⟨0, 0⟩, 0, BleParticleMotion.stop⟩, 0⟩

/-- The malformed record `abc,5,1,2` (non-numeric anchor id). -/
def malformedRecord : List Char := ['a', 'b', 'c', ',', '5', ',', '1', ',', '2']

/-- A concrete host state whose lock is held (a previous update still
running). -/
def c9state : MqttHostState :=
  ⟨[], 0, ⟨[], ⟨⟨0, 0⟩, 0⟩⟩, true, none⟩

/-- The (amended) per-particle invariant: position hard-clamped into
the area, orientation in the closed interval `[0, 2π]`. -/
def ParticleInv (p : BleParticle) : Prop :=
  0 ≤ p.state.pos.x ∧ p.state.pos.x ≤ AREA_X ∧
  0 ≤ p.state.pos.y ∧ p.state.pos.y ≤ AREA_Y ∧
  0 ≤ p.state.theta ∧ p.state.theta ≤ 2 * mpi


/-- C2: the code has no degenerate-reset path.  On an all-zero weight
vector (`N = 2`) `ble_particle_normalize` divides every weight by the
zero sum (`0/0`, NaN in C float; `0` under the exact convention)
instead of resetting the weights to `1/N = 1/2`: no output weight
equals `1/2`, contradicting the claimed guard. -/
theorem C2_normalize_zero_sum_not_reset :
    (ble_particle_normalize [pdefault, pdefault]).map BleParticle.weight = [0, 0] ∧
    (ble_particle_normalize [pdefault, pdefault]).map BleParticle.weight ≠
      [1 / 2, 1 / 2] := by
  norm_num [ble_particle_normalize, pdefault]

/-- C3: the code has no `max_node_distance = 0` guard.  When every
anchor reports distance 0 (so the maximum is 0),
`ble_particle_weight_gain` divides `0 / 0` in
`normalized_reported_distance` (NaN, modelled `none`) instead of
skipping the update.  In contrast, whenever the maximum reported
distance is non-zero — in particular when one anchor reports 0 while
another reports a non-zero distance — the gain is a well-defined real
number (no NaN). -/
theorem C3_weight_gain_missing_zero_max_guard (fsqrt fexp : ℚ → ℚ)
    (hdiag : fsqrt (AREA_X ^ 2 + AREA_Y ^ 2) ≠ 0) :
    ble_particle_weight_gain fsqrt fexp
        [⟨0, 1⟩, ⟨0, 1⟩, ⟨0, 1⟩, ⟨0, 1⟩] = none ∧
    ∀ d0 rest, (maxNodeDist d0 rest).d_node ≠ 0 →
      ∃ q, ble_particle_weight_gain fsqrt fexp (d0 :: rest) = some q := by
  constructor
  · norm_num [ble_particle_weight_gain, maxNodeDist]
  · intro d0 rest hmax
    simp only [ble_particle_weight_gain]
    rw [if_neg hmax, if_neg hdiag]
    exact ⟨_, rfl⟩

/-- Witness for C3 at the concrete math-library stand-ins
`fsqrt = fexp = const 1` (C `sqrtf 13 > 0`). -/
theorem C3_weight_gain_missing_zero_max_guard_witness :
    ((fun _ : ℚ => (1 : ℚ)) (AREA_X ^ 2 + AREA_Y ^ 2) ≠ 0) ∧
    (ble_particle_weight_gain (fun _ => 1) (fun _ => 1)
        [⟨0, 1⟩, ⟨0, 1⟩, ⟨0, 1⟩, ⟨0, 1⟩] = none ∧
      ∀ d0 rest, (maxNodeDist d0 rest).d_node ≠ 0 →
        ∃ q, ble_particle_weight_gain (fun _ => 1) (fun _ => 1) (d0 :: rest) = some q) :=
  ⟨by norm_num,
   C3_weight_gain_missing_zero_max_guard (fun _ => 1) (fun _ => 1) (by norm_num)⟩

/-- C4: the low-pass step follows the claimed update formula
(`prev + (dt/(distance+dt)) * (distance - prev)`, first conjunct), but
the code has no `distance + dt == 0` guard: at `distance = -1`,
`dt = 1` the C code divides by zero (±inf/NaN, modelled `none`) instead
of skipping the update and returning the previous value `5`. -/
theorem C4_low_pass_missing_division_guard :
    ble_rssi_low_pass_filter_step 5 1 1 = some 3 ∧
    ble_rssi_low_pass_filter_step 5 (-1) 1 = none ∧
    ble_rssi_low_pass_filter_step 5 (-1) 1 ≠ some 5 := by
  have h2 : ble_rssi_low_pass_filter_step 5 (-1) 1 = none := by
    norm_num [ble_rssi_low_pass_filter_step]
  refine ⟨by norm_num [ble_rssi_low_pass_filter_step], h2, ?_⟩
  rw [h2]
  exact fun h => Option.noConfusion h

/-- C8: malformed records are not rejected.  `strtol("abc") = 0`, so
the record parses to an entry with id 0 and is stored unconditionally;
on the freshly-cleared aggregation buffer the id-0 scan matches the
first (empty) slot and overwrites it, so the buffer is NOT left
unchanged, contradicting the claimed rejection. -/
theorem C8_malformed_record_not_rejected :
    ble_mqtt_on_data_event (List.replicate NO_OF_APS zeroAp) 0 malformedRecord =
      (⟨⟨1, 2⟩, 0, 5⟩ :: List.replicate 3 zeroAp, 0) ∧
    (⟨⟨1, 2⟩, 0, 5⟩ :: List.replicate 3 zeroAp : List BleParticleAp) ≠
      List.replicate 4 zeroAp := by
  have hp : ble_mqtt_parse_ap_record malformedRecord = ⟨⟨1, 2⟩, 0, 5⟩ := by
    have ht : ctokens malformedRecord = [['a', 'b', 'c'], ['5'], ['1'], ['2']] := by
      simp [ctokens, ctokenAux, malformedRecord]
    simp [ble_mqtt_parse_ap_record, ht, cstrtol, cstrtof, cstrtofUnsigned,
      parseNatDigits, cIsDigit]
  constructor
  · simp [ble_mqtt_on_data_event, hp, ble_mqtt_store_ap_data, storeScan,
      NO_OF_APS, zeroAp, List.replicate]
  · simp [zeroAp, List.replicate]

/-- C9: when the particle-set mutex is still held by a previous
cycle's update, the newly-completed cycle's estimation task takes the
failure branch of its non-blocking `xSemaphoreTake(…, 0)`: the shared
state — in particular the particle set — is untouched and no estimate
is emitted; the ingestion path has already discarded the cycle's
buffered reports (counter reset, buffer cleared) before the task ran,
and its behaviour is independent of the lock bit (it never waits on
the mutex). -/
theorem C9_lock_contention_skips_cycle (fsqrt fexp fcos fsin : ℚ → ℚ)
    (sm : ℕ → BleParticleMotion) (ut gt gp ugen : ℕ → ℚ) (ustart : ℚ)
    (s : MqttHostState) (h : s.lockHeld = true) :
    ble_mqtt_update_pf_task fsqrt fexp fcos fsin sm ut gt gp ugen ustart
        (ble_mqtt_cycle_complete_step s) =
      (ble_mqtt_cycle_complete_step s, none) ∧
    (ble_mqtt_cycle_complete_step s).particles = s.particles ∧
    (ble_mqtt_cycle_complete_step s).eventIdx = 0 ∧
    (ble_mqtt_cycle_complete_step s).apData = List.replicate NO_OF_APS zeroAp ∧
    (∀ b : Bool, ble_mqtt_cycle_complete_step { s with lockHeld := b } =
      { ble_mqtt_cycle_complete_step s with lockHeld := b }) := by
  refine ⟨?_, rfl, rfl, rfl, fun b => rfl⟩
  have hl : (ble_mqtt_cycle_complete_step s).lockHeld = true := h
  simp [ble_mqtt_update_pf_task, hl]

/-- Witness for C9 at `c9state` and trivial oracle stand-ins. -/
theorem C9_lock_contention_skips_cycle_witness :
    (c9state.lockHeld = true) ∧
    (ble_mqtt_update_pf_task (fun _ => 1) (fun _ => 1) (fun _ => 1) (fun _ => 1)
        (fun _ => BleParticleMotion.stop) (fun _ => 0) (fun _ => 0) (fun _ => 0)
        (fun _ => 0) 0 (ble_mqtt_cycle_complete_step c9state) =
      (ble_mqtt_cycle_complete_step c9state, none) ∧
     (ble_mqtt_cycle_complete_step c9state).particles = c9state.particles ∧
     (ble_mqtt_cycle_complete_step c9state).eventIdx = 0 ∧
     (ble_mqtt_cycle_complete_step c9state).apData = List.replicate NO_OF_APS zeroAp ∧
     (∀ b : Bool, ble_mqtt_cycle_complete_step { c9state with lockHeld := b } =
       { ble_mqtt_cycle_complete_step c9state with lockHeld := b })) :=
  ⟨rfl, C9_lock_contention_skips_cycle _ _ _ _ _ _ _ _ _ _ c9state rfl⟩

/-- C10: frame effect of a successful `ble_particle_update` call on its
argument structure: the AP array (ids, positions, reported distances)
and the node acceleration are returned unchanged; only the node
position fields are rewritten. -/
theorem C10_update_frame_effect (fsqrt fexp fcos fsin : ℚ → ℚ)
    (sm : ℕ → BleParticleMotion) (ut gt gp ugen : ℕ → ℚ) (ustart : ℚ)
    (particles? : Option (List BleParticle)) (data : BleParticleData)
    (r : List BleParticle × BleParticleData)
    (h : ble_particle_update fsqrt fexp fcos fsin sm ut gt gp ugen ustart
        particles? data = some r) :
    r.2.aps = data.aps ∧ r.2.node.acceleration = data.node.acceleration := by
  simp only [ble_particle_update] at h
  split at h
  any_goals exact Option.noConfusion h
  all_goals split at h
  any_goals exact Option.noConfusion h
  all_goals
    rw [Option.some_inj] at h
    subst h
    exact ⟨rfl, rfl⟩

/-- Witness for C10: a concrete successful one-particle / one-AP update
run (trivial math-library and random-oracle stand-ins), with the frame
facts obtained from the frame theorem. -/
theorem C10_update_frame_effect_witness :
    ble_particle_update (fun _ => 1) (fun _ => 1) (fun _ => 1) (fun _ => 1)
        (fun _ => BleParticleMotion.stop) (fun _ => 0) (fun _ => 0) (fun _ => 0)
        (fun _ => 0) 0
        (some [⟨⟨⟨1, 1⟩, 0, BleParticleMotion.stop⟩, 1⟩])
        ⟨[⟨⟨0, 0⟩, 1, 1⟩], ⟨⟨0, 0⟩, 7⟩⟩ =
      some ([⟨⟨⟨1, 1⟩, 0, BleParticleMotion.stop⟩, 1⟩],
        ⟨[⟨⟨0, 0⟩, 1, 1⟩], ⟨⟨1, 1⟩, 7⟩⟩) ∧
    ([⟨⟨0, 0⟩, 1, 1⟩] : List BleParticleAp) =
      (⟨[⟨⟨0, 0⟩, 1, 1⟩], ⟨⟨0, 0⟩, 7⟩⟩ : BleParticleData).aps ∧
    (7 : ℚ) = (⟨[⟨⟨0, 0⟩, 1, 1⟩], ⟨⟨0, 0⟩, 7⟩⟩ : BleParticleData).node.acceleration := by
  have h : ble_particle_update (fun _ => 1) (fun _ => 1) (fun _ => 1) (fun _ => 1)
      (fun _ => BleParticleMotion.stop) (fun _ => 0) (fun _ => 0) (fun _ => 0)
      (fun _ => 0) 0
      (some [⟨⟨⟨1, 1⟩, 0, BleParticleMotion.stop⟩, 1⟩])
      ⟨[⟨⟨0, 0⟩, 1, 1⟩], ⟨⟨0, 0⟩, 7⟩⟩ =
    some ([⟨⟨⟨1, 1⟩, 0, BleParticleMotion.stop⟩, 1⟩],
      ⟨[⟨⟨0, 0⟩, 1, 1⟩], ⟨⟨1, 1⟩, 7⟩⟩) := by
    norm_num [ble_particle_update, ble_particle_state_predict, weighAll,
      ble_particle_weight_gain, maxNodeDist, ble_particle_normalize, clampf, clampaf,
      cfmod, ctrunc, ble_util_rand_float, AREA_X, AREA_Y, RATIO_COEFFICIENT,
      AP_MEASUREMENT_VAR, List.enum, List.enumFrom, mpi]
  exact ⟨h,
    (C10_update_frame_effect _ _ _ _ _ _ _ _ _ _ _ _ _ h).1.symm,
    (C10_update_frame_effect _ _ _ _ _ _ _ _ _ _ _ _ _ h).2.symm⟩

/-- One Kalman step, explicitly: the new state moves toward `v` by the
gain factor and the new error covariance is the contracted prediction. -/
theorem kf_estimate_eq (t : BleRssiState) (v : ℚ) :
    ble_rssi_kf_estimate t v =
      ⟨t.state + (t.err_v + t.p_noise) / (t.err_v + t.p_noise + t.m_noise) * (v - t.state),
       (1 - (t.err_v + t.p_noise) / (t.err_v + t.p_noise + t.m_noise)) *
         (t.err_v + t.p_noise),
       t.p_noise, t.m_noise⟩ := rfl

/-- One Kalman step with positive noises and non-negative error
covariance: the covariance stays non-negative and the distance to the
measurement contracts by exactly `R / (P + Q + R) ≤ R / (Q + R)`. -/
theorem kf_step_key (t : BleRssiState) (v : ℚ) (hP : 0 ≤ t.err_v)
    (hQ : 0 < t.p_noise) (hR : 0 < t.m_noise) :
    0 ≤ (ble_rssi_kf_estimate t v).err_v ∧
    |(ble_rssi_kf_estimate t v).state - v| =
      t.m_noise / (t.err_v + t.p_noise + t.m_noise) * |t.state - v| ∧
    t.m_noise / (t.err_v + t.p_noise + t.m_noise) ≤
      t.m_noise / (t.p_noise + t.m_noise) := by
  have hD : 0 < t.err_v + t.p_noise + t.m_noise := by linarith
  have h1k : 1 - (t.err_v + t.p_noise) / (t.err_v + t.p_noise + t.m_noise) =
      t.m_noise / (t.err_v + t.p_noise + t.m_noise) := by
    field_simp
  refine ⟨?_, ?_, ?_⟩
  · rw [kf_estimate_eq]
    simp only
    rw [h1k]
    have h1 : (0 : ℚ) ≤ t.m_noise / (t.err_v + t.p_noise + t.m_noise) := by positivity
    have h2 : (0 : ℚ) ≤ t.err_v + t.p_noise := by linarith
    exact mul_nonneg h1 h2
  · rw [kf_estimate_eq]
    simp only
    have hkey : t.state + (t.err_v + t.p_noise) / (t.err_v + t.p_noise + t.m_noise) *
        (v - t.state) - v =
        t.m_noise / (t.err_v + t.p_noise + t.m_noise) * (t.state - v) := by
      field_simp
      ring
    rw [hkey, abs_mul, abs_of_pos (by positivity)]
  · gcongr
    linarith

/-- Along a constant-input Kalman run the noises are constant and the
error covariance stays non-negative. -/
theorem kf_run_invariant (s0v P0 Q R v : ℚ) (hP : 0 ≤ P0) (hQ : 0 < Q) (hR : 0 < R)
    (n : ℕ) :
    (kfIterate ⟨s0v, P0, Q, R⟩ v n).p_noise = Q ∧
    (kfIterate ⟨s0v, P0, Q, R⟩ v n).m_noise = R ∧
    0 ≤ (kfIterate ⟨s0v, P0, Q, R⟩ v n).err_v := by
  induction n with
  | zero => exact ⟨rfl, rfl, hP⟩
  | succ n ih =>
    obtain ⟨hq, hr, hp⟩ := ih
    refine ⟨?_, ?_, ?_⟩
    · simp only [kfIterate, kf_estimate_eq, hq]
    · simp only [kfIterate, kf_estimate_eq, hr]
    · have := (kf_step_key (kfIterate ⟨s0v, P0, Q, R⟩ v n) v hp
        (by rw [hq]; exact hQ) (by rw [hr]; exact hR)).1
      simpa only [kfIterate] using this

/-- C5: from any initial Kalman state with `error_covariance ≥ 0`,
`process_noise Q > 0` and `measurement_noise R > 0`, feeding the
constant measurement `v` through `ble_rssi_kf_estimate` makes the error
`|filtered_signal - v|` non-increasing at every step and convergent to
0 (each step contracts it by `R/(P+Q+R) ≤ R/(Q+R) < 1`). -/
theorem C5_kalman_constant_input_convergence (s0v P0 Q R v : ℚ)
    (hP : 0 ≤ P0) (hQ : 0 < Q) (hR : 0 < R) :
    (∀ n, |(kfIterate ⟨s0v, P0, Q, R⟩ v (n + 1)).state - v| ≤
      |(kfIterate ⟨s0v, P0, Q, R⟩ v n).state - v|) ∧
    Filter.Tendsto (fun n => |(kfIterate ⟨s0v, P0, Q, R⟩ v n).state - v|)
      Filter.atTop (nhds 0) := by
  set e : ℕ → ℚ := fun n => |(kfIterate ⟨s0v, P0, Q, R⟩ v n).state - v| with he
  set c : ℚ := R / (Q + R) with hc
  have hQR : 0 < Q + R := by linarith
  have hc0 : 0 ≤ c := by positivity
  have hc1 : c < 1 := by rw [hc, div_lt_one hQR]; linarith
  have hstep : ∀ n, ∃ k, 0 ≤ k ∧ k ≤ c ∧ e (n + 1) = k * e n := by
    intro n
    obtain ⟨hq, hr, hp⟩ := kf_run_invariant s0v P0 Q R v hP hQ hR n
    have hq' : 0 < (kfIterate ⟨s0v, P0, Q, R⟩ v n).p_noise := by rw [hq]; exact hQ
    have hr' : 0 < (kfIterate ⟨s0v, P0, Q, R⟩ v n).m_noise := by rw [hr]; exact hR
    obtain ⟨-, habs, hle⟩ := kf_step_key (kfIterate ⟨s0v, P0, Q, R⟩ v n) v hp hq' hr'
    have hsum : 0 ≤ (kfIterate ⟨s0v, P0, Q, R⟩ v n).err_v +
        (kfIterate ⟨s0v, P0, Q, R⟩ v n).p_noise +
        (kfIterate ⟨s0v, P0, Q, R⟩ v n).m_noise := by linarith
    refine ⟨_, div_nonneg hr'.le hsum, ?_, ?_⟩
    · calc (kfIterate ⟨s0v, P0, Q, R⟩ v n).m_noise /
          ((kfIterate ⟨s0v, P0, Q, R⟩ v n).err_v +
            (kfIterate ⟨s0v, P0, Q, R⟩ v n).p_noise +
            (kfIterate ⟨s0v, P0, Q, R⟩ v n).m_noise) ≤
          (kfIterate ⟨s0v, P0, Q, R⟩ v n).m_noise /
            ((kfIterate ⟨s0v, P0, Q, R⟩ v n).p_noise +
              (kfIterate ⟨s0v, P0, Q, R⟩ v n).m_noise) := hle
        _ = c := by rw [hq, hr]
    · simp only [he]
      simp only [kfIterate]
      exact habs
  have hmono : ∀ n, e (n + 1) ≤ e n := by
    intro n
    obtain ⟨k, hk0, hkc, hrec⟩ := hstep n
    rw [hrec]
    calc k * e n ≤ 1 * e n := by
          apply mul_le_mul_of_nonneg_right _ (abs_nonneg _)
          linarith
      _ = e n := one_mul _
  have hbound : ∀ n, e n ≤ c ^ n * e 0 := by
    intro n
    induction n with
    | zero => simp
    | succ n ih =>
      obtain ⟨k, hk0, hkc, hrec⟩ := hstep n
      rw [hrec, pow_succ]
      calc k * e n ≤ c * e n := mul_le_mul_of_nonneg_right hkc (abs_nonneg _)
        _ ≤ c * (c ^ n * e 0) := mul_le_mul_of_nonneg_left ih hc0
        _ = c ^ n * c * e 0 := by ring
  have hgeo : Filter.Tendsto (fun n => c ^ n * e 0) Filter.atTop (nhds 0) := by
    have hpow := tendsto_pow_atTop_nhds_zero_of_lt_one hc0 hc1
    have := hpow.mul_const (e 0)
    simpa using this
  exact ⟨hmono,
    tendsto_of_tendsto_of_tendsto_of_le_of_le tendsto_const_nhds hgeo
      (fun n => abs_nonneg _) hbound⟩

/-- Witness for C5 at the source's initialization constants
`P0 = 1`, `Q = 1/1000`, `R = 20` (rssi.c lines 112-117), input `v = 5`
from initial filtered signal 0. -/
theorem C5_kalman_constant_input_convergence_witness :
    ((0 : ℚ) ≤ 1 ∧ (0 : ℚ) < 1 / 1000 ∧ (0 : ℚ) < 20) ∧
    ((∀ n, |(kfIterate ⟨0, 1, 1 / 1000, 20⟩ 5 (n + 1)).state - 5| ≤
      |(kfIterate ⟨0, 1, 1 / 1000, 20⟩ 5 n).state - 5|) ∧
    Filter.Tendsto (fun n => |(kfIterate ⟨0, 1, 1 / 1000, 20⟩ 5 n).state - 5|)
      Filter.atTop (nhds 0)) :=
  ⟨⟨by norm_num, by norm_num, by norm_num⟩,
   C5_kalman_constant_input_convergence 0 1 (1 / 1000) 20 5
     (by norm_num) (by norm_num) (by norm_num)⟩

/-! ## van der Corput and angle-wrap lemmas -/

theorem prime_sieve_two : ble_util_prime_sieve 2 = [2, 3] := by decide

/-- `corputAux` does not depend on the fuel once it covers the index
(for bases ≥ 2, matching the terminating C loop). -/
theorem corputAux_fuel (b : ℕ) (hb : 2 ≤ b) :
    ∀ n fuel fuel2, n ≤ fuel → n ≤ fuel2 →
      corputAux b fuel n = corputAux b fuel2 n := by
  intro n
  induction n using Nat.strong_induction_on with
  | _ n ih =>
    intro fuel fuel2 h1 h2
    cases n with
    | zero => cases fuel <;> cases fuel2 <;> rfl
    | succ m =>
      cases fuel with
      | zero => omega
      | succ f1 =>
        cases fuel2 with
        | zero => omega
        | succ f2 =>
          have hdm : (m + 1) / b ≤ m :=
            Nat.lt_succ_iff.mp (Nat.div_lt_self (Nat.succ_pos m) (by omega))
          simp only [corputAux]
          congr 2
          exact ih ((m + 1) / b)
            (Nat.div_lt_self (Nat.succ_pos m) (by omega)) f1 f2 (by omega) (by omega)

/-- The digit recurrence of the C loop of `ble_util_corput`. -/
theorem corput_rec (n b : ℕ) (hb : 2 ≤ b) (hn : 0 < n) :
    ble_util_corput n b = (((n % b : ℕ) : ℚ) + ble_util_corput (n / b) b) / b := by
  obtain ⟨m, rfl⟩ := Nat.exists_eq_succ_of_ne_zero hn.ne'
  have hdm : (m + 1) / b ≤ m :=
    Nat.lt_succ_iff.mp (Nat.div_lt_self (Nat.succ_pos m) (by omega))
  show corputAux b (m + 1) (m + 1) = _
  simp only [corputAux]
  congr 2
  exact corputAux_fuel b hb ((m + 1) / b) m ((m + 1) / b) hdm (le_refl _)

/-- Values of the van der Corput sequence lie in `[0, 1)` (base ≥ 2). -/
theorem corput_nonneg_lt_one (b : ℕ) (hb : 2 ≤ b) :
    ∀ n, 0 ≤ ble_util_corput n b ∧ ble_util_corput n b < 1 := by
  intro n
  induction n using Nat.strong_induction_on with
  | _ n ih =>
    rcases Nat.eq_zero_or_pos n with h0 | hpos
    · subst h0
      norm_num [ble_util_corput, corputAux]
    · have hb0 : (0 : ℚ) < b := by exact_mod_cast (by omega : 0 < b)
      rw [corput_rec n b hb hpos]
      obtain ⟨ih0, ih1⟩ := ih (n / b) (Nat.div_lt_self hpos (by omega))
      have hmodq : ((n % b : ℕ) : ℚ) + 1 ≤ (b : ℚ) := by
        exact_mod_cast Nat.mod_lt n (show 0 < b by omega)
      have hmod0 : (0 : ℚ) ≤ ((n % b : ℕ) : ℚ) := Nat.cast_nonneg _
      constructor
      · apply div_nonneg _ hb0.le
        linarith
      · rw [div_lt_one hb0]
        linarith

/-- Only index 0 has van der Corput value 0 (base ≥ 2). -/
theorem corput_eq_zero (b : ℕ) (hb : 2 ≤ b) :
    ∀ n, ble_util_corput n b = 0 → n = 0 := by
  intro n
  induction n using Nat.strong_induction_on with
  | _ n ih =>
    intro hz
    rcases Nat.eq_zero_or_pos n with h0 | hpos
    · exact h0
    · exfalso
      have hb0 : (0 : ℚ) < b := by exact_mod_cast (by omega : 0 < b)
      rw [corput_rec n b hb hpos, div_eq_zero_iff] at hz
      rcases hz with hz | hz
      · have hmod0 : (0 : ℚ) ≤ ((n % b : ℕ) : ℚ) := Nat.cast_nonneg _
        have hc0 : 0 ≤ ble_util_corput (n / b) b :=
          (corput_nonneg_lt_one b hb (n / b)).1
        have hceq : ble_util_corput (n / b) b = 0 := by linarith
        have hdiv0 : n / b = 0 := ih (n / b) (Nat.div_lt_self hpos (by omega)) hceq
        have hmodz : ((n % b : ℕ) : ℚ) = 0 := by linarith
        have hmodz' : n % b = 0 := by exact_mod_cast hmodz
        have hsplit := Nat.div_add_mod n b
        rw [hdiv0, hmodz'] at hsplit
        simp at hsplit
        omega
      · exact absurd hz (ne_of_gt hb0)

/-- The van der Corput map is injective in exact arithmetic (base ≥ 2):
distinct indices give distinct sequence values. -/
theorem corput_injective (b : ℕ) (hb : 2 ≤ b) :
    ∀ m n, ble_util_corput m b = ble_util_corput n b → m = n := by
  have hfloor : ∀ (a : ℕ) (x : ℚ), 0 ≤ x → x < 1 → ⌊(a : ℚ) + x⌋ = a := by
    intro a x h1 h2
    rw [add_comm, Int.floor_add_nat, Int.floor_eq_zero_iff.mpr (Set.mem_Ico.mpr ⟨h1, h2⟩),
      zero_add]
  intro m
  induction m using Nat.strong_induction_on with
  | _ m ih =>
    intro n heq
    rcases Nat.eq_zero_or_pos m with hm0 | hmpos
    · subst hm0
      have hz : ble_util_corput n b = 0 := by rw [← heq]; rfl
      exact (corput_eq_zero b hb n hz).symm
    rcases Nat.eq_zero_or_pos n with hn0 | hnpos
    · subst hn0
      have hz : ble_util_corput m b = 0 := by rw [heq]; rfl
      exact corput_eq_zero b hb m hz
    have hb0 : (0 : ℚ) < b := by exact_mod_cast (by omega : 0 < b)
    rw [corput_rec m b hb hmpos, corput_rec n b hb hnpos] at heq
    have hnum : ((m % b : ℕ) : ℚ) + ble_util_corput (m / b) b =
        ((n % b : ℕ) : ℚ) + ble_util_corput (n / b) b := by
      have := congrArg (fun z : ℚ => z * (b : ℚ)) heq
      field_simp at this
      exact this
    obtain ⟨hm1, hm2⟩ := corput_nonneg_lt_one b hb (m / b)
    obtain ⟨hn1, hn2⟩ := corput_nonneg_lt_one b hb (n / b)
    have hfl : (↑(m % b) : ℤ) = (↑(n % b) : ℤ) := by
      have h1 := hfloor (m % b) _ hm1 hm2
      have h2 := hfloor (n % b) _ hn1 hn2
      rw [← h1, ← h2, hnum]
    have hmodeq : m % b = n % b := by exact_mod_cast hfl
    have hfrac : ble_util_corput (m / b) b = ble_util_corput (n / b) b := by
      have : ((m % b : ℕ) : ℚ) = ((n % b : ℕ) : ℚ) := by exact_mod_cast hfl
      linarith
    have hdiveq : m / b = n / b :=
      ih (m / b) (Nat.div_lt_self hmpos (by omega)) (n / b) hfrac
    calc m = b * (m / b) + m % b := (Nat.div_add_mod m b).symm
      _ = b * (n / b) + n % b := by rw [hdiveq, hmodeq]
      _ = n := Nat.div_add_mod n b

theorem mpi_pos : 0 < mpi := by norm_num [mpi]

/-- `clampf` really clamps into `[lo, hi]`. -/
theorem clampf_mem (v lo hi : ℚ) (h : lo ≤ hi) :
    lo ≤ clampf v lo hi ∧ clampf v lo hi ≤ hi :=
  ⟨le_max_right _ _, max_le (min_le_left _ _) h⟩

/-- C `fmodf` on a non-negative argument with positive modulus lands in
`[0, y)`. -/
theorem cfmod_bounds_nonneg (x y : ℚ) (hy : 0 < y) (hx : 0 ≤ x) :
    0 ≤ cfmod x y ∧ cfmod x y < y := by
  have ht : ctrunc (x / y) = ⌊x / y⌋ := if_pos (by positivity)
  have hxe : cfmod x y = y * Int.fract (x / y) := by
    rw [cfmod, ht, Int.fract]
    field_simp
  constructor
  · rw [hxe]
    exact mul_nonneg hy.le (Int.fract_nonneg _)
  · rw [hxe]
    calc y * Int.fract (x / y) < y * 1 :=
        mul_lt_mul_of_pos_left (Int.fract_lt_one _) hy
      _ = y := mul_one y

/-- C `fmodf` on a negative argument with positive modulus lands in
`(-y, 0]`. -/
theorem cfmod_bounds_neg (x y : ℚ) (hy : 0 < y) (hx : x < 0) :
    -y < cfmod x y ∧ cfmod x y ≤ 0 := by
  have hts : ctrunc (x / y) = ⌈x / y⌉ := by
    rw [ctrunc, if_neg]
    push_neg
    exact div_neg_of_neg_of_pos hx hy
  have h1 : x / y ≤ (⌈x / y⌉ : ℚ) := Int.le_ceil _
  have h2 : (⌈x / y⌉ : ℚ) < x / y + 1 := Int.ceil_lt_add_one _
  have hxe : cfmod x y = y * (x / y - (⌈x / y⌉ : ℚ)) := by
    rw [cfmod, hts]
    field_simp
  constructor
  · rw [hxe]
    nlinarith
  · rw [hxe]
    nlinarith

/-- The angle wrap `clampaf` always lands in `[0, 2π]` — the closed
interval: for a negative multiple of `2π` the result is exactly `2π`
(see the C7 counterexample), for non-negative input it is in
`[0, 2π)`. -/
theorem clampaf_mem (a : ℚ) : 0 ≤ clampaf a ∧ clampaf a ≤ 2 * mpi := by
  have h2m : 0 < 2 * mpi := by norm_num [mpi]
  by_cases ha : a < 0
  · obtain ⟨h1, h2⟩ := cfmod_bounds_neg a (2 * mpi) h2m ha
    rw [clampaf, if_pos ha]
    constructor <;> linarith
  · obtain ⟨h1, h2⟩ := cfmod_bounds_nonneg a (2 * mpi) h2m (le_of_not_lt ha)
    rw [clampaf, if_neg ha]
    constructor <;> linarith

/-- Normal form of `ble_particle_generate`: the sieve returns bases 2
and 3, and the unit-square scaling multiplies out to
`corput * AREA_X` / `corput * AREA_Y`. -/
theorem generate_eq (u : ℕ → ℚ) (size : ℕ) :
    ble_particle_generate u size = (List.range size).map (fun p =>
      ⟨⟨⟨ble_util_corput (p + 1) 2 * AREA_X, ble_util_corput (p + 1) 3 * AREA_Y⟩,
        u p * (2 * mpi), BleParticleMotion.stop⟩, 1 / 400⟩) := by
  unfold ble_particle_generate
  simp only [prime_sieve_two, List.getD_cons_zero, List.getD_cons_succ,
    ble_util_scale, ble_util_rand_float, PARTICLE_SET]
  norm_num

/-- C6 counterexample: `generate(2)` with the orientation draw at its
upper endpoint (`rand() = RAND_MAX`, i.e. `u = 1`, which
`ble_util_rand_float` can produce).  The generated weight is the
hard-coded `1.0F / PARTICLE_SET = 1/400` — not `1/N = 1/2` — and the
stored orientation is exactly `2π`, outside `[0, 2π)`. -/
theorem C6_counterexample :
    ((ble_particle_generate (fun _ => 1) 2).getD 0 pdefault).weight = 1 / 400 ∧
    (1 / 400 : ℚ) ≠ 1 / 2 ∧
    ((ble_particle_generate (fun _ => 1) 2).getD 0 pdefault).state.theta = 2 * mpi ∧
    ¬(((ble_particle_generate (fun _ => 1) 2).getD 0 pdefault).state.theta
        < 2 * mpi) := by
  rw [generate_eq]
  norm_num [List.range_succ]

theorem generate_length (u : ℕ → ℚ) (N : ℕ) :
    (ble_particle_generate u N).length = N := by
  rw [generate_eq]; simp

/-- Every generated position lies in the area (corput values are in
`[0, 1)` and get scaled by the area dimensions). -/
theorem generate_in_area (u : ℕ → ℚ) (N : ℕ) :
    ∀ p ∈ ble_particle_generate u N,
      0 ≤ p.state.pos.x ∧ p.state.pos.x ≤ AREA_X ∧
      0 ≤ p.state.pos.y ∧ p.state.pos.y ≤ AREA_Y := by
  rw [generate_eq]
  intro p hp
  rw [List.mem_map] at hp
  obtain ⟨k, hk, rfl⟩ := hp
  obtain ⟨h20, h21⟩ := corput_nonneg_lt_one 2 (by norm_num) (k + 1)
  obtain ⟨h30, h31⟩ := corput_nonneg_lt_one 3 (by norm_num) (k + 1)
  simp only [AREA_X, AREA_Y]
  refine ⟨by nlinarith, by nlinarith, by nlinarith, by nlinarith⟩

/-- Distinct indices give distinct generated positions (injectivity of
the base-2 van der Corput x-coordinate). -/
theorem generate_distinct_pos (u : ℕ → ℚ) (N : ℕ) :
    ∀ i j, i < N → j < N → i ≠ j →
      ((ble_particle_generate u N).getD i pdefault).state.pos ≠
        ((ble_particle_generate u N).getD j pdefault).state.pos := by
  rw [generate_eq]
  intro i j hi hj hij
  rw [List.getD_eq_getElem _ _ (by simpa using hi),
    List.getD_eq_getElem _ _ (by simpa using hj)]
  simp only [List.getElem_map, List.getElem_range]
  intro hcontra
  apply hij
  have hx := congrArg Vec2.x hcontra
  simp only at hx
  have hcp : ble_util_corput (i + 1) 2 = ble_util_corput (j + 1) 2 :=
    mul_right_cancel₀ (show (AREA_X : ℚ) ≠ 0 by norm_num [AREA_X]) hx
  have := corput_injective 2 (by norm_num) (i + 1) (j + 1) hcp
  omega

/-- Motion state, weight and orientation range of generated particles
(the orientation draw `u ∈ [0, 1]` lands in the closed `[0, 2π]`). -/
theorem generate_fields (u : ℕ → ℚ) (N : ℕ) (hu : ∀ i, 0 ≤ u i ∧ u i ≤ 1) :
    ∀ p ∈ ble_particle_generate u N,
      p.state.motion = BleParticleMotion.stop ∧ p.weight = 1 / 400 ∧
      0 ≤ p.state.theta ∧ p.state.theta ≤ 2 * mpi := by
  rw [generate_eq]
  intro p hp
  rw [List.mem_map] at hp
  obtain ⟨k, hk, rfl⟩ := hp
  obtain ⟨hu0, hu1⟩ := hu k
  have hm := mpi_pos
  exact ⟨rfl, rfl, by nlinarith, by nlinarith⟩

/-- C6 (amended): `generate(N)` returns `N` particles; every position
lies within `[0,W]×[0,H]`; positions are pairwise distinct for any `N`
(in particular `N ≤ 500`); every particle has motion state `Stopped`;
the weight is the constant `1/PARTICLE_SET = 1/400` (which equals `1/N`
exactly at the sole call site `N = PARTICLE_SET`); the orientation lies
in the closed interval `[0, 2π]`. -/
theorem C6_generate_amended (u : ℕ → ℚ) (N : ℕ) (hu : ∀ i, 0 ≤ u i ∧ u i ≤ 1)
    (hN : N ≤ 500) :
    (ble_particle_generate u N).length = N ∧
    (∀ p ∈ ble_particle_generate u N,
      0 ≤ p.state.pos.x ∧ p.state.pos.x ≤ AREA_X ∧
      0 ≤ p.state.pos.y ∧ p.state.pos.y ≤ AREA_Y) ∧
    (∀ i j, i < N → j < N → i ≠ j →
      ((ble_particle_generate u N).getD i pdefault).state.pos ≠
        ((ble_particle_generate u N).getD j pdefault).state.pos) ∧
    (∀ p ∈ ble_particle_generate u N,
      p.state.motion = BleParticleMotion.stop ∧ p.weight = 1 / 400 ∧
      0 ≤ p.state.theta ∧ p.state.theta ≤ 2 * mpi) :=
  ⟨generate_length u N, generate_in_area u N, generate_distinct_pos u N,
   generate_fields u N hu⟩

/-- Witness for C6 (amended) at `N = 3` with the all-zero orientation
draw. -/
theorem C6_generate_amended_witness :
    ((∀ i : ℕ, (0 : ℚ) ≤ 0 ∧ (0 : ℚ) ≤ 1) ∧ (3 : ℕ) ≤ 500) ∧
    ((ble_particle_generate (fun _ => 0) 3).length = 3 ∧
    (∀ p ∈ ble_particle_generate (fun _ => 0) 3,
      0 ≤ p.state.pos.x ∧ p.state.pos.x ≤ AREA_X ∧
      0 ≤ p.state.pos.y ∧ p.state.pos.y ≤ AREA_Y) ∧
    (∀ i j, i < 3 → j < 3 → i ≠ j →
      ((ble_particle_generate (fun _ => 0) 3).getD i pdefault).state.pos ≠
        ((ble_particle_generate (fun _ => 0) 3).getD j pdefault).state.pos) ∧
    (∀ p ∈ ble_particle_generate (fun _ => 0) 3,
      p.state.motion = BleParticleMotion.stop ∧ p.weight = 1 / 400 ∧
      0 ≤ p.state.theta ∧ p.state.theta ≤ 2 * mpi)) :=
  ⟨⟨fun _ => ⟨le_refl 0, by norm_num⟩, by norm_num⟩,
   C6_generate_amended (fun _ => 0) 3 (fun _ => ⟨le_refl 0, by norm_num⟩)
     (by norm_num)⟩

/-- Whatever `ble_particle_resample` outputs is, state-wise, a copy of
an input particle: the SUS selection copies whole particles and the
final normalize rescales weights only. -/
theorem resample_mem_state (ps : List BleParticle) (start : ℚ)
    (out : List BleParticle) (h : ble_particle_resample ps start = some out) :
    ∀ q ∈ out, ∃ p ∈ ps, q.state = p.state := by
  cases ps with
  | nil => exact absurd h (by simp [ble_particle_resample])
  | cons p0 rest =>
    simp only [ble_particle_resample] at h
    split at h
    · exact Option.noConfusion h
    · rw [Option.some_inj] at h
      subst h
      intro q hq
      simp only [ble_particle_normalize, List.mem_map] at hq
      obtain ⟨r, hr, rfl⟩ := hq
      obtain ⟨i, hi, rfl⟩ := hr
      refine ⟨(p0 :: rest).getD i p0, ?_, rfl⟩
      by_cases hlen : i < (p0 :: rest).length
      · rw [List.getD_eq_getElem _ _ hlen]
        exact List.getElem_mem hlen
      · rw [List.getD_eq_default _ _ (le_of_not_lt hlen)]
        exact List.mem_cons_self _ _

/-- C7 counterexample: a predict step on a particle with orientation 0
whose sampled (Gaussian) orientation delta is exactly `-2π`.
`clampaf(-2π) = fmodf(-2π, 2π) + 2π = 2π`, so the stored orientation
is exactly `2π` — not in the claimed half-open `[0, 2π)`. -/
theorem C7_counterexample :
    ((ble_particle_state_predict (fun _ => 0) (fun _ => 0)
        (fun _ => BleParticleMotion.moving) (fun _ => 0) (fun _ => -(2 * mpi))
        (fun _ => 0) [pdefault]).getD 0 pdefault).state.theta = 2 * mpi ∧
    ¬(((ble_particle_state_predict (fun _ => 0) (fun _ => 0)
        (fun _ => BleParticleMotion.moving) (fun _ => 0) (fun _ => -(2 * mpi))
        (fun _ => 0) [pdefault]).getD 0 pdefault).state.theta < 2 * mpi) := by
  have hth : ((ble_particle_state_predict (fun _ => 0) (fun _ => 0)
      (fun _ => BleParticleMotion.moving) (fun _ => 0) (fun _ => -(2 * mpi))
      (fun _ => 0) [pdefault]).getD 0 pdefault).state.theta = clampaf (-(2 * mpi)) := by
    norm_num [ble_particle_state_predict, List.enum, List.enumFrom, pdefault]
  have hval : clampaf (-(2 * mpi)) = 2 * mpi := by
    have hpi : (2 * mpi : ℚ) = 13176795 / 2097152 := by norm_num [mpi]
    have hceil : ⌈(-1 : ℚ)⌉ = -1 := by
      rw [show (-1 : ℚ) = ((-1 : ℤ) : ℚ) by norm_num, Int.ceil_intCast]
    rw [clampaf, cfmod, ctrunc, hpi]
    norm_num [hceil]
  rw [hth, hval]
  exact ⟨rfl, lt_irrefl _⟩

/-- C7 (amended): `generate` establishes, and `predict` and `resample`
preserve, the particle invariant — position hard-clamped into
`[0,W]×[0,H]` and wrapped orientation in the closed interval `[0, 2π]`
(the half-open `[0, 2π)` of the original claim fails, see the
counterexample). -/
theorem C7_operations_preserve_invariant :
    (∀ (u : ℕ → ℚ) (N : ℕ), (∀ i, 0 ≤ u i ∧ u i ≤ 1) →
      ∀ p ∈ ble_particle_generate u N, ParticleInv p) ∧
    (∀ (fcos fsin : ℚ → ℚ) (sm : ℕ → BleParticleMotion) (ut gt gp : ℕ → ℚ)
        (ps : List BleParticle),
      ∀ p ∈ ble_particle_state_predict fcos fsin sm ut gt gp ps, ParticleInv p) ∧
    (∀ (ps : List BleParticle) (start : ℚ) (out : List BleParticle),
      (∀ p ∈ ps, ParticleInv p) →
      ble_particle_resample ps start = some out →
      ∀ q ∈ out, ParticleInv q) := by
  refine ⟨?_, ?_, ?_⟩
  · intro u N hu p hp
    obtain ⟨h1, h2, h3, h4⟩ := generate_in_area u N p hp
    obtain ⟨-, -, h5, h6⟩ := generate_fields u N hu p hp
    exact ⟨h1, h2, h3, h4, h5, h6⟩
  · intro fcos fsin sm ut gt gp ps p hp
    simp only [ble_particle_state_predict, List.mem_map] at hp
    obtain ⟨pr, hpr, rfl⟩ := hp
    unfold ParticleInv
    refine ⟨(clampf_mem _ 0 AREA_X (by norm_num [AREA_X])).1,
            (clampf_mem _ 0 AREA_X (by norm_num [AREA_X])).2,
            (clampf_mem _ 0 AREA_Y (by norm_num [AREA_Y])).1,
            (clampf_mem _ 0 AREA_Y (by norm_num [AREA_Y])).2,
            (clampaf_mem _).1, (clampaf_mem _).2⟩
  · intro ps start out hinv h q hq
    obtain ⟨p, hpmem, hstate⟩ := resample_mem_state ps start out h q hq
    have hp := hinv p hpmem
    unfold ParticleInv at hp ⊢
    rw [hstate]
    exact hp

/-- Witness for C7 at concrete inputs: a 2-particle generate run, a
one-particle predict step, and a concrete successful resample run on
two equal-weight particles. -/
theorem C7_operations_preserve_invariant_witness :
    (∀ p ∈ ble_particle_generate (fun _ => 0) 2, ParticleInv p) ∧
    (∀ p ∈ ble_particle_state_predict (fun _ => 1) (fun _ => 1)
        (fun _ => BleParticleMotion.stop) (fun _ => 0) (fun _ => 0) (fun _ => 0)
        [pdefault], ParticleInv p) ∧
    (ble_particle_resample
        [⟨⟨⟨0, 0⟩, 0, BleParticleMotion.stop⟩, 1 / 2⟩,
         ⟨⟨⟨0, 0⟩, 0, BleParticleMotion.stop⟩, 1 / 2⟩] (1 / 4) =
      some [⟨⟨⟨0, 0⟩, 0, BleParticleMotion.stop⟩, 1 / 2⟩,
            ⟨⟨⟨0, 0⟩, 0, BleParticleMotion.stop⟩, 1 / 2⟩]) ∧
    (∀ q ∈ [(⟨⟨⟨0, 0⟩, 0, BleParticleMotion.stop⟩, 1 / 2⟩ : BleParticle),
            ⟨⟨⟨0, 0⟩, 0, BleParticleMotion.stop⟩, 1 / 2⟩], ParticleInv q) := by
  have hres : ble_particle_resample
      [⟨⟨⟨0, 0⟩, 0, BleParticleMotion.stop⟩, 1 / 2⟩,
       ⟨⟨⟨0, 0⟩, 0, BleParticleMotion.stop⟩, 1 / 2⟩] (1 / 4) =
      some [⟨⟨⟨0, 0⟩, 0, BleParticleMotion.stop⟩, 1 / 2⟩,
            ⟨⟨⟨0, 0⟩, 0, BleParticleMotion.stop⟩, 1 / 2⟩] := by
    norm_num [ble_particle_resample, susLoop, susAdvance, ble_particle_normalize,
      List.range_succ]
  have hinv : ∀ p ∈ [(⟨⟨⟨0, 0⟩, 0, BleParticleMotion.stop⟩, 1 / 2⟩ : BleParticle),
      ⟨⟨⟨0, 0⟩, 0, BleParticleMotion.stop⟩, 1 / 2⟩], ParticleInv p := by
    intro p hp
    simp only [List.mem_cons, List.not_mem_nil, or_false] at hp
    rcases hp with rfl | rfl
    · norm_num [ParticleInv, AREA_X, AREA_Y, mpi]
    · norm_num [ParticleInv, AREA_X, AREA_Y, mpi]
  exact ⟨C7_operations_preserve_invariant.1 (fun _ => 0) 2
      (fun _ => ⟨le_refl 0, by norm_num⟩),
    C7_operations_preserve_invariant.2.1 (fun _ => 1) (fun _ => 1)
      (fun _ => BleParticleMotion.stop) (fun _ => 0) (fun _ => 0) (fun _ => 0)
      [pdefault],
    hres,
    C7_operations_preserve_invariant.2.2 _ (1 / 4) _ hinv hres⟩

/-- C1 counterexample: an array of two particles with (non-negative)
all-zero weights and SUS offset `start = 1/4` — a legal draw from
`[0, 1/N] = [0, 1/2]`.  The cumulative sum stays 0 and never reaches
the pointer, so the `while (sum < pointer)` loop walks the index past
the last array element (out-of-bounds read, undefined behaviour in C,
`none` in the model): `resample` produces no array of size `N`.  The
claim as stated, for arbitrary non-negative weights, is false. -/
theorem C1_counterexample :
    ble_particle_resample
      [⟨⟨⟨0, 0⟩, 0, BleParticleMotion.stop⟩, 0⟩,
       ⟨⟨⟨0, 0⟩, 0, BleParticleMotion.stop⟩, 0⟩] (1 / 4) = none ∧
    susAdvance (1 / 4) [0] 0 0 = none := by
  constructor
  · norm_num [ble_particle_resample, susLoop, susAdvance, List.range_succ]
  · norm_num [susAdvance]

/-- The inner SUS advance succeeds whenever the remaining total weight
can still reach the pointer; it preserves the scan invariants: the
final sum has reached the pointer, index/suffix length balance and the
running total are conserved, suffix non-negativity is kept, and the
index only grows. -/
theorem susAdvance_success (pointer : ℚ) :
    ∀ (rest : List ℚ) (s : ℚ) (index : ℕ),
      (∀ w ∈ rest, 0 ≤ w) → pointer ≤ s + rest.sum →
      ∃ s2 index2 rest2,
        susAdvance pointer rest s index = some (s2, index2, rest2) ∧
        pointer ≤ s2 ∧
        index2 + rest2.length = index + rest.length ∧
        s2 + rest2.sum = s + rest.sum ∧
        (∀ w ∈ rest2, 0 ≤ w) ∧
        index ≤ index2 := by
  intro rest
  induction rest with
  | nil =>
    intro s index hw hp
    simp only [List.sum_nil, add_zero] at hp
    refine ⟨s, index, [], ?_, hp, rfl, rfl, hw, le_refl _⟩
    simp only [susAdvance, if_neg (not_lt.mpr hp)]
  | cons w rest ih =>
    intro s index hw hp
    by_cases hlt : s < pointer
    · have hw' : ∀ x ∈ rest, 0 ≤ x := fun x hx => hw x (List.mem_cons_of_mem _ hx)
      have hp' : pointer ≤ s + w + rest.sum := by
        simp only [List.sum_cons] at hp
        linarith
      obtain ⟨s2, i2, r2, heq, h1, h2, h3, h4, h5⟩ := ih (s + w) (index + 1) hw' hp'
      refine ⟨s2, i2, r2, ?_, h1, ?_, ?_, h4, by omega⟩
      · simp only [susAdvance, if_pos hlt]
        exact heq
      · simp only [List.length_cons]
        omega
      · simp only [List.sum_cons]
        linarith
    · refine ⟨s, index, w :: rest, ?_, not_lt.mp hlt, rfl, rfl, hw, le_refl _⟩
      simp only [susAdvance, if_neg hlt]

/-- The outer SUS loop succeeds whenever every pointer is below the
running total plus the remaining weight; the selected indices never
exceed the entering index plus the remaining suffix length. -/
theorem susLoop_success :
    ∀ (ptrs rest : List ℚ) (s : ℚ) (index : ℕ),
      (∀ w ∈ rest, 0 ≤ w) → (∀ p ∈ ptrs, p ≤ s + rest.sum) →
      ∃ idxs, susLoop ptrs rest s index = some idxs ∧
        idxs.length = ptrs.length ∧
        ∀ i ∈ idxs, i ≤ index + rest.length := by
  intro ptrs
  induction ptrs with
  | nil =>
    intro rest s index hw hp
    exact ⟨[], rfl, rfl, by simp⟩
  | cons p ptrs ih =>
    intro rest s index hw hp
    obtain ⟨s2, i2, r2, heq, hp2, hlen, hsum, hw2, hmono⟩ :=
      susAdvance_success p rest s index hw (hp p (List.mem_cons_self _ _))
    have hp' : ∀ q ∈ ptrs, q ≤ s2 + r2.sum := by
      intro q hq
      rw [hsum]
      exact hp q (List.mem_cons_of_mem _ hq)
    obtain ⟨idxs, heq2, hlen2, hbound⟩ := ih r2 s2 i2 hw2 hp'
    refine ⟨i2 :: idxs, ?_, by simp [hlen2], ?_⟩
    · simp [susLoop, heq, heq2]
    · intro i hi
      rcases List.mem_cons.mp hi with rfl | hi2
      · omega
      · have := hbound i hi2
        omega

/-- C1 (amended): for every particle array of size `N ≥ 1` with
non-negative weights summing to at least 1 (in particular any
normalized weight set, whose exact sum is 1) and every SUS offset
`start ∈ [0, 1/N]` (the range of the code's draw), resampling
succeeds: the single SUS pass keeps the cumulative-sum index strictly
below `N` for every pointer, and it produces an array of exactly `N`
particles, each of which is state-wise a copy of some particle present
before resampling. -/
theorem C1_resample_sus (p0 : BleParticle) (rest : List BleParticle) (start : ℚ)
    (hw : ∀ p ∈ p0 :: rest, 0 ≤ p.weight)
    (hsum : 1 ≤ ((p0 :: rest).map BleParticle.weight).sum)
    (hs0 : 0 ≤ start) (hs1 : start ≤ 1 / ((rest.length + 1 : ℕ) : ℚ)) :
    ∃ out, ble_particle_resample (p0 :: rest) start = some out ∧
      out.length = rest.length + 1 ∧
      (∀ q ∈ out, ∃ p ∈ p0 :: rest, q.state = p.state) ∧
      ∃ idxs,
        susLoop ((List.range (rest.length + 1)).map
            (fun k : ℕ => start + (k : ℚ) * (1 / ((rest.length + 1 : ℕ) : ℚ))))
          (rest.map BleParticle.weight) p0.weight 0 = some idxs ∧
        ∀ i ∈ idxs, i < rest.length + 1 := by
  have hnq : (0 : ℚ) < ((rest.length + 1 : ℕ) : ℚ) := by
    exact_mod_cast Nat.succ_pos rest.length
  have hw0 : 0 ≤ p0.weight := hw p0 (List.mem_cons_self _ _)
  have hwr : ∀ w ∈ rest.map BleParticle.weight, 0 ≤ w := by
    intro w hwmem
    rw [List.mem_map] at hwmem
    obtain ⟨p, hp, rfl⟩ := hwmem
    exact hw p (List.mem_cons_of_mem _ hp)
  have htotal : p0.weight + (rest.map BleParticle.weight).sum =
      ((p0 :: rest).map BleParticle.weight).sum := by
    simp
  have hptr : ∀ p ∈ (List.range (rest.length + 1)).map
      (fun k : ℕ => start + (k : ℚ) * (1 / ((rest.length + 1 : ℕ) : ℚ))),
      p ≤ p0.weight + (rest.map BleParticle.weight).sum := by
    intro p hp
    rw [List.mem_map] at hp
    obtain ⟨k, hk, rfl⟩ := hp
    rw [List.mem_range] at hk
    have hkq : (k : ℚ) ≤ ((rest.length + 1 : ℕ) : ℚ) - 1 := by
      push_cast
      have : (k : ℚ) ≤ (rest.length : ℚ) := by exact_mod_cast Nat.lt_succ_iff.mp hk
      linarith
    have hone : start + (k : ℚ) * (1 / ((rest.length + 1 : ℕ) : ℚ)) ≤ 1 := by
      have h1n : (0 : ℚ) ≤ 1 / ((rest.length + 1 : ℕ) : ℚ) := by positivity
      have h2 := mul_le_mul_of_nonneg_right hkq h1n
      have h3 : 1 / ((rest.length + 1 : ℕ) : ℚ) +
          (((rest.length + 1 : ℕ) : ℚ) - 1) * (1 / ((rest.length + 1 : ℕ) : ℚ)) = 1 := by
        field_simp
        ring
      linarith
    have h4 : (1 : ℚ) ≤ p0.weight + (rest.map BleParticle.weight).sum := by
      rw [htotal]
      exact hsum
    linarith
  obtain ⟨idxs, hloop, hlen, hbound⟩ :=
    susLoop_success ((List.range (rest.length + 1)).map
        (fun k : ℕ => start + (k : ℚ) * (1 / ((rest.length + 1 : ℕ) : ℚ))))
      (rest.map BleParticle.weight) p0.weight 0 hwr hptr
  have hbound' : ∀ i ∈ idxs, i < rest.length + 1 := by
    intro i hi
    have := hbound i hi
    simp only [List.length_map] at this
    omega
  have hres : ble_particle_resample (p0 :: rest) start =
      some (ble_particle_normalize
        (idxs.map (fun i => (p0 :: rest).getD i p0))) := by
    simp only [ble_particle_resample, List.length_cons, hloop]
  refine ⟨_, hres, ?_, resample_mem_state _ _ _ hres, idxs, hloop, hbound'⟩
  simp only [ble_particle_normalize, List.length_map]
  rw [hlen]
  simp

/-- Witness for C1 (amended): two normalized particles (weights 1/2),
offset `1/4 ∈ [0, 1/2]` — resampling succeeds with an output of size
exactly 2. -/
theorem C1_resample_sus_witness :
    ((0 : ℚ) ≤ 1 / 2 ∧ (1 : ℚ) ≤ 1 / 2 + 1 / 2 ∧ (0 : ℚ) ≤ 1 / 4 ∧
      (1 / 4 : ℚ) ≤ 1 / 2) ∧
    ∃ out, ble_particle_resample
        [⟨⟨⟨0, 0⟩, 0, BleParticleMotion.stop⟩, 1 / 2⟩,
         ⟨⟨⟨1, 1⟩, 0, BleParticleMotion.stop⟩, 1 / 2⟩] (1 / 4) = some out ∧
      out.length = 2 := by
  refine ⟨by norm_num, ?_⟩
  obtain ⟨out, hres, hlen, -, -⟩ := C1_resample_sus
    ⟨⟨⟨0, 0⟩, 0, BleParticleMotion.stop⟩, 1 / 2⟩
    [⟨⟨⟨1, 1⟩, 0, BleParticleMotion.stop⟩, 1 / 2⟩] (1 / 4)
    (by
      intro p hp
      simp only [List.mem_cons, List.not_mem_nil, or_false] at hp
      rcases hp with rfl | rfl <;> norm_num)
    (by norm_num [List.map_cons, List.sum_cons])
    (by norm_num)
    (by norm_num)
  exact ⟨out, hres, hlen⟩
